import Mathlib

/-!
Verification development for the GitLens revision-addressing core:
`src/git/gitUri.ts` (GitUri: decode/encode of revision locators) and
`src/git/models/commit.ts` (GitCommit: provenance records with a lazy,
memoized previous-revision resolution).

The TypeScript code is shallowly embedded:
* Node's `path.posix` functions are modelled at the character level over
  `List Char` (Node's own implementation is a character scanner); functions
  whose result depends on the process working directory (`resolve`,
  `relative`) take an explicit `cwd` argument.
* JavaScript `string | undefined` values become `Option String`; JS
  truthiness of such a value is `jsTruthy`.
* `vscode.Uri` is a record of its five components; `Uri.parse` splits a
  string at the first `:`, `#` and `?`.
* `JSON.stringify`/`JSON.parse` of the revision payload are modelled by a
  char-level serializer and a parser for the canonical payload shape.
* Helpers of `GitService`/`Git` that live outside the provided sources
  (sentinel classification, sha shortening, path normalization, the
  revision scheme constant) are modelled from the spec and marked so.
-/

set_option autoImplicit false

namespace GitLens

/-- JS truthiness of a `string | undefined` value: `undefined` and the empty
string are falsy. -/
def jsTruthy : Option String → Bool
  | none => false
  | some s => s ≠ ""

/-- JS `a || b` on two `string | undefined` values. -/
def jsOrSS (a b : Option String) : Option String :=
  if jsTruthy a then a else b

/-! ## Character-level path scanning utilities (model of Node `path.posix`) -/

/-- Split a character stream into the nonempty, `/`-separated segments,
carrying the (reversed) characters of the segment being scanned. -/
def rawPartsAux : List Char → List Char → List String
  | acc, [] => if acc = [] then [] else [String.mk acc.reverse]
  | acc, c :: rest =>
    if c = '/' then
      if acc = [] then rawPartsAux [] rest
      else String.mk acc.reverse :: rawPartsAux [] rest
    else rawPartsAux (c :: acc) rest

/-- The nonempty `/`-separated segments of a path string (empty segments from
repeated separators are dropped, as Node's normalizer does). -/
def rawParts (s : String) : List String :=
  rawPartsAux [] s.data

/-- Resolve `.` and `..` segments of an absolute path: `..` at the root is
dropped (Node's `normalizeStringPosix` with `allowAboveRoot = false`). -/
def normAbsAux : List String → List String → List String
  | acc, [] => acc.reverse
  | acc, p :: rest =>
    if p = "." then normAbsAux acc rest
    else if p = ".." then normAbsAux (acc.drop 1) rest
    else normAbsAux (p :: acc) rest

/-- Absolute-path segment normalization. -/
def normAbs (ps : List String) : List String :=
  normAbsAux [] ps

/-- Resolve `.` and `..` segments of a relative path: leading `..` segments
are kept (Node's `normalizeStringPosix` with `allowAboveRoot = true`). -/
def normRelAux : List String → List String → List String
  | acc, [] => acc.reverse
  | acc, p :: rest =>
    if p = "." then normRelAux acc rest
    else if p = ".." then
      match acc with
      | [] => normRelAux [".."] rest
      | a :: tl => if a = ".." then normRelAux (".." :: a :: tl) rest else normRelAux tl rest
    else normRelAux (p :: acc) rest

/-- Relative-path segment normalization. -/
def normRel (ps : List String) : List String :=
  normRelAux [] ps

/-- The characters of segments joined with `/` (no leading separator). -/
def segChars : List String → List Char
  | [] => []
  | [p] => p.data
  | p :: q :: rest => p.data ++ '/' :: segChars (q :: rest)

/-- Segments joined with `/` into a relative path string. -/
def relOf (ps : List String) : String :=
  String.mk (segChars ps)

/-- Segments joined with `/` into an absolute path string. -/
def absOf (ps : List String) : String :=
  String.mk ('/' :: segChars ps)

/-- Length of the longest common prefix of two segment lists. -/
def commonPrefixLen : List String → List String → Nat
  | a :: as, b :: bs => if a = b then commonPrefixLen as bs + 1 else 0
  | _, _ => 0

/-- Does the path start with a `/` (Node checks the first character)? -/
def isAbsolutePath (s : String) : Bool :=
  match s.data with
  | c :: _ => c = '/'
  | [] => false

/-- Does the path end with a `/`? -/
def hasTrailingSlash (s : String) : Bool :=
  match s.data.reverse with
  | c :: _ => c = '/'
  | [] => false

/-! ## Node `path.posix` model -/

/-- The segments of `path.posix.resolve(base, rel)` evaluated with working
directory `cwd` (Node prepends the working directory when no argument is
absolute; the working directory is treated as absolute). -/
def resolveParts (cwd base rel : String) : List String :=
  if isAbsolutePath rel then normAbs (rawParts rel)
  else if isAbsolutePath base then normAbs (rawParts base ++ rawParts rel)
  else normAbs (rawParts cwd ++ rawParts base ++ rawParts rel)

/-- Model of `path.posix.resolve(base, rel)` with working directory `cwd`. -/
def posixResolve2 (cwd base rel : String) : String :=
  String.mk ('/' :: segChars (resolveParts cwd base rel))

/-- Model of `path.posix.relative(fromPath, toPath)` with working directory
`cwd`: both arguments are resolved, the common prefix is dropped, and the
remaining source segments are replaced by `..` steps. -/
def posixRelative (cwd fromPath toPath : String) : String :=
  let fp := resolveParts cwd "" fromPath
  let tp := resolveParts cwd "" toPath
  if fp = tp then ""
  else
    let k := commonPrefixLen fp tp
    String.mk (segChars (List.replicate (fp.length - k) ".." ++ tp.drop k))

/-- Model of `path.posix.normalize`. -/
def posixNormalize (p : String) : String :=
  if p.data = [] then "."
  else
    let abs := isAbsolutePath p
    let trail := hasTrailingSlash p
    let ps := if abs then normAbs (rawParts p) else normRel (rawParts p)
    let s1 := String.mk (segChars ps)
    let s2 := if s1.data = [] ∧ abs = false then "." else s1
    let s3 := if s2.data ≠ [] ∧ trail = true then String.mk (s2.data ++ ['/']) else s2
    if abs then String.mk ('/' :: s3.data) else s3

/-- Model of `path.posix.join(a, b)`: empty arguments are skipped, the rest
are joined with `/` and normalized; with no arguments the result is `.`. -/
def posixJoin2 (a b : String) : String :=
  if a = "" ∧ b = "" then "."
  else if a = "" then posixNormalize b
  else if b = "" then posixNormalize a
  else posixNormalize (String.mk (a.data ++ '/' :: b.data))

/-- Model of `path.posix.dirname`: skip trailing separators, skip the base
name, and cut just before the separator found there; a separator is only
recognized at index 1 or later, exactly as in Node's loop. -/
def posixDirname (p : String) : String :=
  if p.data = [] then "."
  else
    let hasRoot := isAbsolutePath p
    let r1 := p.data.reverse.dropWhile (fun c => c = '/')
    let r2 := r1.dropWhile (fun c => c ≠ '/')
    if r2.length ≥ 2 then
      if hasRoot ∧ r2.length - 1 = 1 then "//"
      else String.mk (r2.tail.reverse)
    else if hasRoot then "/" else "."

/-- Model of `path.posix.basename`: the characters after the last separator,
ignoring trailing separators. -/
def posixBasename (p : String) : String :=
  let r := p.data.reverse.dropWhile (fun c => c = '/')
  String.mk ((r.takeWhile (fun c => c ≠ '/')).reverse)

/-- The `dir` component of `path.posix.parse`: everything before the last
separator; `/` when the last separator is the root; empty when there is no
separator. -/
def posixParseDir (p : String) : String :=
  let rest := p.data.reverse.dropWhile (fun c => c ≠ '/')
  if rest.isEmpty then ""
  else
    let d := String.mk ((rest.drop 1).reverse)
    if d = "" then "/" else d

/-- The base component of `path.posix.parse`: the characters after the last
separator (no trailing-separator skipping, matching `parse` on the inputs
used here, which never end in a separator). -/
def parseBase (p : String) : String :=
  String.mk ((p.data.reverse.takeWhile (fun c => c ≠ '/')).reverse)

/-- Split a base name into `(name, ext)` as `path.posix.parse` does: the
extension starts at the last dot, except that a dot at index 0 (a leading-dot
file such as `.bashrc`) yields no extension. -/
def extSplit (base : String) : String × String :=
  let r := base.data.reverse
  let extR := r.takeWhile (fun c => c ≠ '.')
  if extR.length = r.length then (base, "")
  else
    let restR := r.drop (extR.length + 1)
    if restR = [] then (base, "")
    else (String.mk restR.reverse, String.mk ('.' :: extR.reverse))

/-! ## Revision-id classification (spec §4.3; code not under the provided sources) -/

/-- Modelled from the spec: the sentinel revision id meaning "plain
uncommitted working copy" (spec §4.3, glossary); the concrete token of
`Git`/`GitService` is not among the provided sources. -/
def uncommittedSha : String := "0000000000000000000000000000000000000000"

/-- Modelled from the spec: the sentinel revision id meaning "staged
uncommitted" (spec §4.3, glossary); distinct from the plain uncommitted
sentinel. -/
def stagedUncommittedSha : String := "0000000000000000000000000000000000000000:"

/-- Modelled from the spec: `isStagedUncommitted(id)` recognizes exactly the
staged-uncommitted sentinel (spec §4.3). -/
def isStagedUncommitted (id : String) : Bool :=
  id = stagedUncommittedSha

/-- Modelled from the spec: `isUncommitted(id)` is true for either sentinel
(spec §4.3: "true for either sentinel"). -/
def isUncommitted (id : String) : Bool :=
  id = uncommittedSha || id = stagedUncommittedSha

/-- `isStagedUncommitted` lifted to `string | undefined` (a JS regular
expression test on `undefined` is false). -/
def isStagedUncommittedOpt : Option String → Bool
  | none => false
  | some s => isStagedUncommitted s

/-- `isUncommitted` lifted to `string | undefined`. -/
def isUncommittedOpt : Option String → Bool
  | none => false
  | some s => isUncommitted s

/-- Modelled from the spec: `shortenSha` truncates a real revision id to the
fixed display length (7, the length of the spec's own example `deadbee` in
§8.7); the sentinels short-circuit to themselves (spec §4.3). -/
def shortenSha (id : String) : String :=
  if isUncommitted id then id else String.mk (id.data.take 7)

/-- Modelled from the spec: `GitService.normalizePath` (spec §2, "normalizing
filesystem paths"), turning backslash separators into slashes. -/
def normalizePath (p : String) : String :=
  String.mk (p.data.map (fun c => if c = '\\' then '/' else c))

/-- Modelled from the spec: the Revision scheme tag
(`DocumentSchemes.GitLensGit`; spec §6 `<revision-scheme>`). -/
def gitLensGitScheme : String := "gitlens-git"

/-! ## JSON payload model (`IUriRevisionData` and its wire form) -/

/-- The structured query payload of a Revision-scheme locator
(`IUriRevisionData` in `gitUri.ts`). -/
structure IUriRevisionData where
  sha : Option String
  fileName : String
  repoPath : String
  deriving DecidableEq, Repr

/-- The opening brace character. -/
def lbrace : Char := Char.ofNat 123

/-- The closing brace character. -/
def rbrace : Char := Char.ofNat 125

/-- JSON string-body escaping: backslashes and double quotes are prefixed
with a backslash (the payload strings carry no control characters). -/
def escChars : List Char → List Char
  | [] => []
  | c :: rest =>
    if c = '\\' ∨ c = '"' then '\\' :: c :: escChars rest
    else c :: escChars rest

/-- The characters of one `"key":"value"` JSON member. -/
def kvChars (key v : String) : List Char :=
  '"' :: key.data ++ '"' :: ':' :: '"' :: escChars v.data ++ ['"']

/-- The characters of `JSON.stringify` applied to the payload: members in
object-literal insertion order (`fileName`, `repoPath`, `sha`), with an
`undefined` sha omitted. -/
def revDataChars (d : IUriRevisionData) : List Char :=
  lbrace :: kvChars "fileName" d.fileName ++
    ',' :: kvChars "repoPath" d.repoPath ++
    (match d.sha with
      | none => []
      | some s => ',' :: kvChars "sha" s) ++ [rbrace]

/-- Model of `JSON.stringify` on the revision payload. -/
def stringifyRevisionData (d : IUriRevisionData) : String :=
  String.mk (revDataChars d)

/-- Parse a JSON string body up to its closing quote, undoing the escaping;
`none` on an unterminated literal. -/
def parseStringAux (acc : List Char) : List Char → Option (String × List Char)
  | [] => none
  | c :: rest =>
    if c = '"' then some (String.mk acc.reverse, rest)
    else if c = '\\' then
      match rest with
      | [] => none
      | e :: rest2 => parseStringAux (e :: acc) rest2
    else parseStringAux (c :: acc) rest

/-- Expect a literal character sequence, returning the remainder. -/
def expectChars : List Char → List Char → Option (List Char)
  | [], rest => some rest
  | e :: es, c :: rest => if c = e then expectChars es rest else none
  | _ :: _, [] => none

/-- Parse one `"key":"value"` member with the given key. -/
def parseKeyVal (key : String) (cs : List Char) : Option (String × List Char) :=
  match expectChars ('"' :: key.data ++ ['"', ':', '"']) cs with
  | some rest => parseStringAux [] rest
  | none => none

/-- Model of `JSON.parse` on the revision payload: accepts the canonical
shape produced by `stringifyRevisionData`; anything else is a parse failure
(the source's `JSON.parse` throwing on a malformed payload, spec §7). -/
def parseRevisionData (s : String) : Option IUriRevisionData :=
  match s.data with
  | [] => none
  | c :: cs =>
    if c = lbrace then
      match parseKeyVal "fileName" cs with
      | none => none
      | some (fn, cs1) =>
        match cs1 with
        | c1 :: cs2 =>
          if c1 = ',' then
            match parseKeyVal "repoPath" cs2 with
            | none => none
            | some (rp, cs3) =>
              match cs3 with
              | c3 :: cs4 =>
                if c3 = rbrace ∧ cs4 = [] then some ⟨none, fn, rp⟩
                else if c3 = ',' then
                  match parseKeyVal "sha" cs4 with
                  | some (sh, cs5) =>
                    if cs5 = [rbrace] then some ⟨some sh, fn, rp⟩ else none
                  | none => none
                else none
              | [] => none
          else none
        | [] => none
    else none

/-! ## `vscode.Uri` model -/

/-- A resource locator as its five components (`vscode.Uri`). -/
structure Uri where
  scheme : String
  authority : String
  path : String
  query : String
  fragment : String
  deriving DecidableEq, Repr

/-- Split a character stream at the first occurrence of `sep`; when `sep`
does not occur the second component is empty. -/
def splitAtFirst (sep : Char) : List Char → List Char × List Char
  | [] => ([], [])
  | c :: rest =>
    if c = sep then ([], rest)
    else
      let p := splitAtFirst sep rest
      (c :: p.1, p.2)

/-- Model of `Uri.parse` on the locator strings produced here: the scheme is
everything before the first `:`, the fragment everything after the first `#`,
the query everything after the first `?` of what remains (the emitted
locators carry no authority component). -/
def Uri.parse (s : String) : Uri :=
  let p1 := splitAtFirst ':' s.data
  let p2 := splitAtFirst '#' p1.2
  let p3 := splitAtFirst '?' p2.1
  ⟨String.mk p1.1, "", String.mk p3.1, String.mk p3.2, String.mk p2.2⟩

/-- Model of `Uri.file`. -/
def Uri.file (p : String) : Uri :=
  ⟨"file", "", p, "", ""⟩

/-- Model of `Uri.fsPath` for the authority-free posix locators used here:
the path component itself. -/
def Uri.fsPath (u : Uri) : String :=
  u.path

/-! ## `GitUri` (`src/git/gitUri.ts`) -/

/-- The explicit commit-info record accepted by the `GitUri` constructor
(`IGitCommitInfo`). -/
structure IGitCommitInfo where
  fileName : Option String
  repoPath : String
  sha : Option String
  deriving DecidableEq, Repr

/-- A `GitUri`: the underlying locator produced by the `super(...)` call plus
the optional repository root and revision id. -/
structure GitUri where
  uri : Uri
  repoPath : Option String := none
  sha : Option String := none
  deriving DecidableEq, Repr

/-- The second constructor argument: a repository root string or an explicit
commit-info record. -/
inductive CommitOrRepoPath where
  | repo (repoPath : String)
  | info (commit : IGitCommitInfo)
  deriving DecidableEq, Repr

/-- JS `a || b` where `a` is `string | undefined` and `b` a string. -/
def jsOr2 (a : Option String) (b : String) : String :=
  match a with
  | some s => if s = "" then b else s
  | none => b

/-- The `GitUri` constructor on a defined `uri` argument: a Revision-scheme
locator is decoded from its query payload (`none` models `JSON.parse`
throwing on a malformed payload); otherwise the locator passes through, the
second argument supplying a repository root or a commit-info record. -/
def gitUriMake (cwd : String) (u : Uri) (arg : Option CommitOrRepoPath) : Option GitUri :=
  if u.scheme = gitLensGitScheme then
    match parseRevisionData u.query with
    | some d =>
      some { uri := ⟨u.scheme, u.authority, posixResolve2 cwd d.repoPath d.fileName, u.query, u.fragment⟩,
             repoPath := some d.repoPath,
             sha := if isStagedUncommittedOpt d.sha || !(isUncommittedOpt d.sha) then d.sha else none }
    | none => none
  else
    match arg with
    | none => some { uri := u }
    | some (.repo rp) => some { uri := u, repoPath := some rp }
    | some (.info c) =>
      some { uri := ⟨u.scheme, u.authority, posixResolve2 cwd c.repoPath (jsOr2 c.fileName u.fsPath), u.query, u.fragment⟩,
             repoPath := some c.repoPath,
             sha := if isStagedUncommittedOpt c.sha || !(isUncommittedOpt c.sha) then c.sha else none }

/-- The single-argument `GitUri` constructor (`GitUri.fromRevisionUri`). -/
def gitUriFromUri (cwd : String) (u : Uri) : Option GitUri :=
  gitUriMake cwd u none

/-- The directory computed inside `getFormattedPath`: dirname of the path,
relativized against the repository root when that is truthy, then against
`relativeTo` when given, then normalized. -/
def GitUri.formattedDirectory (cwd : String) (g : GitUri) (relativeTo : Option String) : String :=
  let d1 := posixDirname g.uri.fsPath
  let d2 := if jsTruthy g.repoPath then posixRelative cwd (g.repoPath.getD "") d1 else d1
  let d3 :=
    match relativeTo with
    | some rt => posixRelative cwd rt d2
    | none => d2
  normalizePath d3

/-- `GitUri.getFormattedPath`: the basename alone when the computed directory
is empty or `.`, otherwise basename, separator and directory. -/
def GitUri.getFormattedPath (cwd : String) (g : GitUri) (separator : String) (relativeTo : Option String) : String :=
  let directory := g.formattedDirectory cwd relativeTo
  if directory = "" ∨ directory = "." then posixBasename g.uri.fsPath
  else posixBasename g.uri.fsPath ++ separator ++ directory

/-- The locator string emitted by `GitUri.toRevisionUri` in its
`(sha, fileName, repoPath)` overload, before `Uri.parse`. -/
def toRevisionUriString (cwd sha fileName repoPath : String) : String :=
  let shortSha := shortenSha sha
  let data : IUriRevisionData :=
    ⟨some sha, normalizePath (posixRelative cwd repoPath fileName), repoPath⟩
  let dir := posixParseDir fileName
  let ne := extSplit (parseBase fileName)
  gitLensGitScheme ++ ":" ++ posixJoin2 dir ne.1 ++ ":" ++ shortSha ++ ne.2 ++ "?" ++
    stringifyRevisionData data

/-- `GitUri.toRevisionUri (sha, fileName, repoPath)`. -/
def toRevisionUri (cwd sha fileName repoPath : String) : Uri :=
  Uri.parse (toRevisionUriString cwd sha fileName repoPath)

/-! ## `GitCommit` (`src/git/models/commit.ts`) -/

/-- The classification tag of a commit record (`GitCommitType`). -/
inductive GitCommitType where
  | blame
  | branch
  | file
  | stash
  | stashFile
  deriving DecidableEq, Repr

/-- Failures of the external reference resolver (spec §6/§7). -/
inductive GitErr where
  | referenceNotFound
  | ambiguousReference
  deriving DecidableEq, Repr

/-- The external `git.resolveReference(repoPath, ref, uri?)` collaborator
(spec §6), which may fail. -/
def ResolveReference : Type :=
  String → String → Option Uri → Except GitErr String

/-- A `GitCommit`: the constructor-initialized fields plus the mutable
previous-sha field and the memoized resolved-previous-sha cache.
`previousFileSha` is the abstract per-variant accessor; modelled from the
spec (§9, open question): a value determined by the variant's own fields,
represented here as a field of the record. -/
structure GitCommit where
  type : GitCommitType
  repoPath : String
  sha : String
  author : String
  date : Int
  message : String
  _fileName : String
  originalFileName : Option String
  _previousSha : Option String
  previousFileName : Option String
  workingFileName : Option String := none
  _resolvedPreviousFileSha : Option String := none
  previousFileSha : String
  deriving DecidableEq, Repr

/-- `GitCommit.isFile`: true exactly on the per-file tags. -/
def GitCommit.isFile (c : GitCommit) : Bool :=
  c.type = GitCommitType.blame || c.type = GitCommitType.file ||
    c.type = GitCommitType.stashFile

/-- `GitCommit.isStash`. -/
def GitCommit.isStash (c : GitCommit) : Bool :=
  c.type = GitCommitType.stash || c.type = GitCommitType.stashFile

/-- The public `fileName` getter: the stored name for per-file records, empty
otherwise. -/
def GitCommit.fileName (c : GitCommit) : String :=
  if c.isFile then c._fileName else ""

/-- The `uri` getter: the file name resolved against the repository root. -/
def GitCommit.uri (cwd : String) (c : GitCommit) : Uri :=
  Uri.file (posixResolve2 cwd c.repoPath c.fileName)

/-- The `previousUri` getter: when `previousFileName` is truthy, it (with the
dead `|| originalFileName` fallback) resolved against the repository root;
otherwise `this.uri`. -/
def GitCommit.previousUri (cwd : String) (c : GitCommit) : Uri :=
  if jsTruthy c.previousFileName then
    Uri.file (posixResolve2 cwd c.repoPath
      ((jsOrSS c.previousFileName c.originalFileName).getD ""))
  else c.uri cwd

/-- The `previousSha` getter. -/
def GitCommit.previousSha (c : GitCommit) : Option String :=
  c._previousSha

/-- The `previousSha` setter: returns early on an equal value, otherwise
stores it and invalidates the resolved-previous-sha cache. -/
def GitCommit.setPreviousSha (c : GitCommit) (v : Option String) : GitCommit :=
  if v = c._previousSha then c
  else { c with _previousSha := v, _resolvedPreviousFileSha := none }

/-- `GitCommit.resolvePreviousFileSha`: a no-op when the cache already holds
a value; otherwise the external resolver is consulted and its result cached,
with a resolver failure propagated and the record left unchanged. -/
def GitCommit.resolvePreviousFileSha (cwd : String) (git : ResolveReference)
    (c : GitCommit) : Except GitErr GitCommit :=
  if c._resolvedPreviousFileSha ≠ none then Except.ok c
  else
    match git c.repoPath c.previousFileSha
        (if c.fileName ≠ "" then some (c.previousUri cwd) else none) with
    | Except.ok v => Except.ok { c with _resolvedPreviousFileSha := some v }
    | Except.error e => Except.error e

/-- `GitCommit.getChangedValue`: an omitted change (`undefined`) keeps the
original, the clear sentinel (`null`) unsets the field, any other value
replaces it. -/
def getChangedValue {α : Type} (change : Option (Option α)) (original : Option α) : Option α :=
  match change with
  | none => original
  | some none => none
  | some (some v) => some v

/-- A well-formed path segment: nonempty, not a dot segment, free of the
separator, of backslashes (so `normalizePath` is inert) and of the `?`/`#`
locator metacharacters. -/
def CleanSeg (s : String) : Prop :=
  s.data ≠ [] ∧ s ≠ "." ∧ s ≠ ".." ∧ '/' ∉ s.data ∧ '\\' ∉ s.data ∧
    '?' ∉ s.data ∧ '#' ∉ s.data

instance (s : String) : Decidable (CleanSeg s) := by
  unfold CleanSeg; infer_instance

/-! ## Basic facts about the scanning utilities -/

theorem strMk_data (s : String) : String.mk s.data = s := rfl

theorem data_strMk (cs : List Char) : (String.mk cs).data = cs := rfl

theorem string_ne_of_data_ne {s t : String} (h : s.data ≠ t.data) : s ≠ t := by
  intro he; exact h (by rw [he])

theorem data_ne_nil_of_ne_empty {s : String} (h : s ≠ "") : s.data ≠ [] := by
  intro hd
  apply h
  cases s with
  | mk d =>
    have : d = [] := hd
    rw [this]

theorem rawPartsAux_nosep (cs : List Char) :
    ∀ (acc rest : List Char), (∀ c ∈ cs, c ≠ '/') →
      rawPartsAux acc (cs ++ rest) = rawPartsAux (cs.reverse ++ acc) rest := by
  induction cs with
  | nil => intro acc rest _; simp
  | cons c cs ih =>
    intro acc rest h
    have hc : c ≠ '/' := h c (List.mem_cons_self c cs)
    rw [List.cons_append, rawPartsAux, if_neg hc,
      ih (c :: acc) rest (fun x hx => h x (List.mem_cons_of_mem c hx))]
    simp

theorem rawPartsAux_segChars (ps : List String)
    (h : ∀ s ∈ ps, s.data ≠ [] ∧ '/' ∉ s.data) :
    rawPartsAux [] (segChars ps) = ps := by
  induction ps with
  | nil => rfl
  | cons p rest ih =>
    have hp := h p (List.mem_cons_self p rest)
    have hpn : ∀ c ∈ p.data, c ≠ '/' := fun c hc he => hp.2 (he ▸ hc)
    cases rest with
    | nil =>
      have := rawPartsAux_nosep p.data [] [] hpn
      rw [List.append_nil] at this
      rw [segChars, this, rawPartsAux]
      rw [if_neg (by simpa using hp.1)]
      simp
    | cons q qs =>
      rw [segChars, rawPartsAux_nosep p.data [] ('/' :: segChars (q :: qs)) hpn,
        rawPartsAux]
      rw [if_pos rfl, if_neg (by simpa using hp.1)]
      rw [ih (fun s hs => h s (List.mem_cons_of_mem p hs))]
      simp

theorem rawParts_relOf (ps : List String)
    (h : ∀ s ∈ ps, s.data ≠ [] ∧ '/' ∉ s.data) :
    rawParts (relOf ps) = ps := by
  simpa [rawParts, relOf] using rawPartsAux_segChars ps h

theorem rawParts_absOf (ps : List String)
    (h : ∀ s ∈ ps, s.data ≠ [] ∧ '/' ∉ s.data) :
    rawParts (absOf ps) = ps := by
  show rawPartsAux [] ('/' :: segChars ps) = ps
  rw [rawPartsAux, if_pos rfl, if_pos rfl]
  exact rawPartsAux_segChars ps h

theorem normAbsAux_clean (ps : List String) :
    ∀ acc, (∀ s ∈ ps, s ≠ "." ∧ s ≠ "..") →
      normAbsAux acc ps = acc.reverse ++ ps := by
  induction ps with
  | nil => intro acc _; simp [normAbsAux]
  | cons p rest ih =>
    intro acc h
    have hp := h p (List.mem_cons_self p rest)
    rw [normAbsAux, if_neg hp.1, if_neg hp.2,
      ih (p :: acc) (fun s hs => h s (List.mem_cons_of_mem p hs))]
    simp

theorem normAbs_clean (ps : List String) (h : ∀ s ∈ ps, s ≠ "." ∧ s ≠ "..") :
    normAbs ps = ps := by
  simpa [normAbs] using normAbsAux_clean ps [] h

theorem isAbsolutePath_absOf (ps : List String) :
    isAbsolutePath (absOf ps) = true := rfl

theorem segChars_cons_head {p : String} {rest : List String} :
    ∃ t, segChars (p :: rest) = p.data ++ t := by
  cases rest with
  | nil => exact ⟨[], by simp [segChars]⟩
  | cons q qs => exact ⟨'/' :: segChars (q :: qs), rfl⟩

theorem isAbsolutePath_relOf {ps : List String}
    (h : ∀ s ∈ ps, s.data ≠ [] ∧ '/' ∉ s.data) :
    isAbsolutePath (relOf ps) = false := by
  cases ps with
  | nil => rfl
  | cons p rest =>
    obtain ⟨t, ht⟩ := @segChars_cons_head p rest
    have hp := h p (List.mem_cons_self p rest)
    show isAbsolutePath (String.mk (segChars (p :: rest))) = false
    rw [ht]
    cases hd : p.data with
    | nil => exact absurd hd hp.1
    | cons c cs =>
      have hc : c ≠ '/' := fun he => hp.2 (he ▸ hd ▸ List.mem_cons_self c cs)
      simp [isAbsolutePath, hd, hc]

theorem cleanSeg_ne_sep {s : String} (h : CleanSeg s) : s.data ≠ [] ∧ '/' ∉ s.data :=
  ⟨h.1, h.2.2.2.1⟩

theorem cleanSeg_ne_dots {s : String} (h : CleanSeg s) : s ≠ "." ∧ s ≠ ".." :=
  ⟨h.2.1, h.2.2.1⟩

theorem resolveParts_abs_rel (cwd : String) (rps fps : List String)
    (hr : ∀ s ∈ rps, CleanSeg s) (hf : ∀ s ∈ fps, CleanSeg s) :
    resolveParts cwd (absOf rps) (relOf fps) = rps ++ fps := by
  have hrel := isAbsolutePath_relOf (fun s hs => cleanSeg_ne_sep (hf s hs))
  have habs : ∀ s ∈ rps ++ fps, CleanSeg s := by
    intro s hs
    rcases List.mem_append.1 hs with h | h
    · exact hr s h
    · exact hf s h
  unfold resolveParts
  rw [hrel]
  simp only [Bool.false_eq_true, if_false, isAbsolutePath_absOf, if_true]
  rw [rawParts_absOf rps (fun s hs => cleanSeg_ne_sep (hr s hs)),
    rawParts_relOf fps (fun s hs => cleanSeg_ne_sep (hf s hs))]
  exact normAbs_clean _ (fun s hs => cleanSeg_ne_dots (habs s hs))

theorem resolveParts_of_abs (cwd base : String) (ps : List String)
    (h : ∀ s ∈ ps, CleanSeg s) :
    resolveParts cwd base (absOf ps) = ps := by
  unfold resolveParts
  rw [isAbsolutePath_absOf]
  simp only [if_true]
  rw [rawParts_absOf ps (fun s hs => cleanSeg_ne_sep (h s hs))]
  exact normAbs_clean _ (fun s hs => cleanSeg_ne_dots (h s hs))

theorem posixResolve2_abs_rel (cwd : String) (rps fps : List String)
    (hr : ∀ s ∈ rps, CleanSeg s) (hf : ∀ s ∈ fps, CleanSeg s) :
    posixResolve2 cwd (absOf rps) (relOf fps) = absOf (rps ++ fps) := by
  unfold posixResolve2
  rw [resolveParts_abs_rel cwd rps fps hr hf]
  rfl

theorem commonPrefixLen_append (l m : List String) :
    commonPrefixLen l (l ++ m) = l.length := by
  induction l with
  | nil => cases m <;> rfl
  | cons a as ih => simp [commonPrefixLen, ih]

theorem append_ne_self_of_ne_nil {l m : List String} (hm : m ≠ []) :
    l ≠ l ++ m := by
  intro h
  have := congrArg List.length h
  rw [List.length_append] at this
  have : m.length = 0 := by omega
  exact hm (List.length_eq_zero.1 this)

theorem posixRelative_roundtrip (cwd : String) (rps fps : List String)
    (hr : ∀ s ∈ rps, CleanSeg s) (hf : ∀ s ∈ fps, CleanSeg s) (hfne : fps ≠ []) :
    posixRelative cwd (absOf rps) (absOf (rps ++ fps)) = relOf fps := by
  have habs : ∀ s ∈ rps ++ fps, CleanSeg s := by
    intro s hs
    rcases List.mem_append.1 hs with h | h
    · exact hr s h
    · exact hf s h
  unfold posixRelative
  rw [resolveParts_of_abs cwd "" rps hr, resolveParts_of_abs cwd "" (rps ++ fps) habs]
  rw [if_neg (append_ne_self_of_ne_nil hfne), commonPrefixLen_append]
  show String.mk (segChars (List.replicate (rps.length - rps.length) ".." ++
    List.drop rps.length (rps ++ fps))) = relOf fps
  rw [Nat.sub_self, List.replicate_zero, List.nil_append, List.drop_left]
  rfl

theorem posixRelative_self (cwd p : String) : posixRelative cwd p p = "" := by
  unfold posixRelative
  simp

theorem map_slash_id (cs : List Char) (h : ∀ c ∈ cs, c ≠ '\\') :
    cs.map (fun c => if c = '\\' then '/' else c) = cs := by
  induction cs with
  | nil => rfl
  | cons c rest ih =>
    rw [List.map_cons, if_neg (h c (List.mem_cons_self c rest)),
      ih (fun x hx => h x (List.mem_cons_of_mem c hx))]

theorem mem_segChars {c : Char} (ps : List String) (h : c ∈ segChars ps) :
    c = '/' ∨ ∃ s ∈ ps, c ∈ s.data := by
  induction ps with
  | nil => cases h
  | cons p rest ih =>
    cases rest with
    | nil =>
      exact Or.inr ⟨p, List.mem_cons_self p [], h⟩
    | cons q qs =>
      rw [segChars] at h
      rcases List.mem_append.1 h with h1 | h1
      · exact Or.inr ⟨p, List.mem_cons_self p _, h1⟩
      · rcases List.mem_cons.1 h1 with h2 | h2
        · exact Or.inl h2
        · rcases ih h2 with h3 | ⟨s, hs, hcs⟩
          · exact Or.inl h3
          · exact Or.inr ⟨s, List.mem_cons_of_mem p hs, hcs⟩

theorem normalizePath_relOf (fps : List String) (h : ∀ s ∈ fps, CleanSeg s) :
    normalizePath (relOf fps) = relOf fps := by
  unfold normalizePath
  rw [map_slash_id]
  intro c hc
  rcases mem_segChars fps hc with h1 | ⟨s, hs, hcs⟩
  · rw [h1]; decide
  · intro he
    exact (h s hs).2.2.2.2.1 (he ▸ hcs)

theorem segChars_cons (x : String) (ys : List String) (h : ys ≠ []) :
    segChars (x :: ys) = x.data ++ '/' :: segChars ys := by
  cases ys with
  | nil => exact absurd rfl h
  | cons q qs => rfl

theorem segChars_append_single (ps : List String) (b : String) (h : ps ≠ []) :
    segChars (ps ++ [b]) = segChars ps ++ '/' :: b.data := by
  induction ps with
  | nil => exact absurd rfl h
  | cons p rest ih =>
    cases rest with
    | nil => rfl
    | cons q qs =>
      have hne : (q :: qs) ≠ ([] : List String) := by simp
      rw [List.cons_append, segChars_cons p ((q :: qs) ++ [b]) (by simp),
        segChars_cons p (q :: qs) hne, ih hne]
      simp

/-! ## The JSON wire form round-trips -/

theorem parseStringAux_quote (acc rest : List Char) :
    parseStringAux acc ('"' :: rest) = some (String.mk acc.reverse, rest) := by
  rw [parseStringAux.eq_def]
  simp

theorem parseStringAux_bs (acc rest : List Char) (c : Char) :
    parseStringAux acc ('\\' :: c :: rest) = parseStringAux (c :: acc) rest := by
  have h : ¬(('\\' : Char) = '"') := by decide
  rw [parseStringAux.eq_def]
  simp [h]

theorem parseStringAux_plain (acc rest : List Char) (c : Char)
    (h1 : c ≠ '"') (h2 : c ≠ '\\') :
    parseStringAux acc (c :: rest) = parseStringAux (c :: acc) rest := by
  rw [parseStringAux.eq_def]
  simp [h1, h2]

theorem parseStringAux_esc (cs : List Char) :
    ∀ (acc rest : List Char),
      parseStringAux acc (escChars cs ++ '"' :: rest) =
        some (String.mk (acc.reverse ++ cs), rest) := by
  induction cs with
  | nil =>
    intro acc rest
    show parseStringAux acc ('"' :: rest) = _
    rw [parseStringAux_quote]
    simp
  | cons c cs ih =>
    intro acc rest
    by_cases hc : c = '\\' ∨ c = '"'
    · rw [escChars, if_pos hc]
      simp only [List.cons_append]
      rw [parseStringAux_bs, ih]
      simp
    · push_neg at hc
      rw [escChars, if_neg (by tauto)]
      simp only [List.cons_append]
      rw [parseStringAux_plain _ _ _ hc.2 hc.1, ih]
      simp

theorem expectChars_self (es : List Char) :
    ∀ rest, expectChars es (es ++ rest) = some rest := by
  induction es with
  | nil => intro rest; rfl
  | cons e es ih =>
    intro rest
    rw [List.cons_append, expectChars, if_pos rfl, ih]

theorem parseKeyVal_canon (key v : String) (rest : List Char) :
    parseKeyVal key (kvChars key v ++ rest) = some (v, rest) := by
  unfold parseKeyVal kvChars
  have harg : ('"' :: key.data ++ '"' :: ':' :: '"' :: escChars v.data ++ ['"']) ++ rest =
      ('"' :: key.data ++ ['"', ':', '"']) ++ (escChars v.data ++ '"' :: rest) := by
    simp
  rw [harg, expectChars_self]
  show parseStringAux [] (escChars v.data ++ '"' :: rest) = _
  rw [parseStringAux_esc]
  simp [strMk_data]

theorem parse_stringify (d : IUriRevisionData) :
    parseRevisionData (stringifyRevisionData d) = some d := by
  obtain ⟨sha, fn, rp⟩ := d
  have hcr : ¬((',' : Char) = rbrace) := by decide
  cases sha with
  | none =>
    have h2 : revDataChars ⟨none, fn, rp⟩ =
        lbrace :: (kvChars "fileName" fn ++
          (',' :: (kvChars "repoPath" rp ++ (rbrace :: [])))) := by
      unfold revDataChars
      simp
    show parseRevisionData (String.mk (revDataChars ⟨none, fn, rp⟩)) = _
    rw [h2]
    unfold parseRevisionData
    simp only [data_strMk, parseKeyVal_canon, hcr]
    simp
  | some s =>
    have h2 : revDataChars ⟨some s, fn, rp⟩ =
        lbrace :: (kvChars "fileName" fn ++
          (',' :: (kvChars "repoPath" rp ++
            (',' :: (kvChars "sha" s ++ (rbrace :: [])))))) := by
      unfold revDataChars
      simp
    show parseRevisionData (String.mk (revDataChars ⟨some s, fn, rp⟩)) = _
    rw [h2]
    unfold parseRevisionData
    simp only [data_strMk, parseKeyVal_canon, hcr]
    simp

/-! ## `Uri.parse` on the emitted locator shape -/

theorem splitAtFirst_found (sep : Char) (a : List Char) :
    ∀ b, sep ∉ a → splitAtFirst sep (a ++ sep :: b) = (a, b) := by
  induction a with
  | nil =>
    intro b _
    show splitAtFirst sep (sep :: b) = _
    rw [splitAtFirst, if_pos rfl]
  | cons c a ih =>
    intro b h
    have hc : c ≠ sep := fun he => h (he ▸ List.mem_cons_self c a)
    rw [List.cons_append, splitAtFirst, if_neg hc,
      ih b (fun hm => h (List.mem_cons_of_mem c hm))]

theorem splitAtFirst_notfound (sep : Char) (a : List Char) (h : sep ∉ a) :
    splitAtFirst sep a = (a, []) := by
  induction a with
  | nil => rfl
  | cons c a ih =>
    have hc : c ≠ sep := fun he => h (he ▸ List.mem_cons_self c a)
    rw [splitAtFirst, if_neg hc, ih (fun hm => h (List.mem_cons_of_mem c hm))]

theorem uriParse_canon (scheme : String) (pc jc : List Char)
    (hs : ':' ∉ scheme.data) (hp1 : '#' ∉ pc) (hp2 : '?' ∉ pc) (hj : '#' ∉ jc) :
    Uri.parse (String.mk (scheme.data ++ ':' :: (pc ++ '?' :: jc))) =
      ⟨scheme, "", String.mk pc, String.mk jc, ""⟩ := by
  have hrest : '#' ∉ pc ++ '?' :: jc := by
    intro h
    rcases List.mem_append.1 h with h1 | h1
    · exact hp1 h1
    · rcases List.mem_cons.1 h1 with h2 | h2
      · exact absurd h2 (by decide)
      · exact hj h2
  unfold Uri.parse
  rw [data_strMk, splitAtFirst_found _ _ _ hs]
  simp only []
  rw [splitAtFirst_notfound _ _ hrest]
  simp only []
  rw [splitAtFirst_found _ _ _ hp2]

/-! ## Character-membership bounds for the emitted locator components -/

theorem mem_of_take {c : Char} {n : Nat} : ∀ {l : List Char}, c ∈ l.take n → c ∈ l := by
  intro l
  induction l generalizing n with
  | nil => intro h; simpa using h
  | cons x xs ih =>
    intro h
    cases n with
    | zero => simpa using h
    | succ m =>
      rcases List.mem_cons.1 h with h1 | h1
      · exact h1 ▸ List.mem_cons_self x xs
      · exact List.mem_cons_of_mem x (ih h1)

theorem mem_of_drop {c : Char} {n : Nat} : ∀ {l : List Char}, c ∈ l.drop n → c ∈ l := by
  intro l
  induction l generalizing n with
  | nil => intro h; simpa using h
  | cons x xs ih =>
    intro h
    cases n with
    | zero => simpa using h
    | succ m => exact List.mem_cons_of_mem x (ih h)

theorem mem_of_takeWhileP {c : Char} {p : Char → Bool} :
    ∀ {l : List Char}, c ∈ l.takeWhile p → c ∈ l := by
  intro l
  induction l with
  | nil => intro h; simpa using h
  | cons x xs ih =>
    intro h
    rw [List.takeWhile_cons] at h
    by_cases hp : p x
    · rw [if_pos hp] at h
      rcases List.mem_cons.1 h with h1 | h1
      · exact h1 ▸ List.mem_cons_self x xs
      · exact List.mem_cons_of_mem x (ih h1)
    · rw [if_neg hp] at h
      cases h

theorem mem_of_dropWhileP {c : Char} {p : Char → Bool} :
    ∀ {l : List Char}, c ∈ l.dropWhile p → c ∈ l := by
  intro l
  induction l with
  | nil => intro h; simpa using h
  | cons x xs ih =>
    intro h
    rw [List.dropWhile_cons] at h
    by_cases hp : p x
    · rw [if_pos hp] at h
      exact List.mem_cons_of_mem x (ih h)
    · rw [if_neg hp] at h
      exact h

theorem mem_rawPartsAux {c : Char} :
    ∀ (cs acc : List Char) (s : String), s ∈ rawPartsAux acc cs → c ∈ s.data →
      c ∈ acc ∨ c ∈ cs := by
  intro cs
  induction cs with
  | nil =>
    intro acc s hs hc
    rw [rawPartsAux] at hs
    by_cases ha : acc = ([] : List Char)
    · rw [if_pos ha] at hs; cases hs
    · rw [if_neg ha] at hs
      rcases List.mem_cons.1 hs with h1 | h1
      · left
        have : c ∈ acc.reverse := by rw [h1] at hc; exact hc
        exact List.mem_reverse.1 this
      · cases h1
  | cons x xs ih =>
    intro acc s hs hc
    rw [rawPartsAux] at hs
    by_cases hx : x = '/'
    · rw [if_pos hx] at hs
      by_cases ha : acc = ([] : List Char)
      · rw [if_pos ha] at hs
        rcases ih [] s hs hc with h1 | h1
        · cases h1
        · exact Or.inr (List.mem_cons_of_mem x h1)
      · rw [if_neg ha] at hs
        rcases List.mem_cons.1 hs with h1 | h1
        · left
          have : c ∈ acc.reverse := by rw [h1] at hc; exact hc
          exact List.mem_reverse.1 this
        · rcases ih [] s h1 hc with h2 | h2
          · cases h2
          · exact Or.inr (List.mem_cons_of_mem x h2)
    · rw [if_neg hx] at hs
      rcases ih (x :: acc) s hs hc with h1 | h1
      · rcases List.mem_cons.1 h1 with h2 | h2
        · exact Or.inr (h2 ▸ List.mem_cons_self x xs)
        · exact Or.inl h2
      · exact Or.inr (List.mem_cons_of_mem x h1)

theorem mem_rawParts {c : Char} {p : String} {s : String}
    (hs : s ∈ rawParts p) (hc : c ∈ s.data) : c ∈ p.data := by
  rcases mem_rawPartsAux p.data [] s hs hc with h | h
  · cases h
  · exact h

theorem mem_normAbsAux {s : String} :
    ∀ (ps acc : List String), s ∈ normAbsAux acc ps → s ∈ acc ∨ s ∈ ps := by
  intro ps
  induction ps with
  | nil =>
    intro acc h
    rw [normAbsAux] at h
    exact Or.inl (List.mem_reverse.1 h)
  | cons p rest ih =>
    intro acc h
    rw [normAbsAux] at h
    by_cases h1 : p = "."
    · rw [if_pos h1] at h
      rcases ih acc h with h2 | h2
      · exact Or.inl h2
      · exact Or.inr (List.mem_cons_of_mem p h2)
    · rw [if_neg h1] at h
      by_cases h2 : p = ".."
      · rw [if_pos h2] at h
        rcases ih (acc.drop 1) h with h3 | h3
        · left
          have : s ∈ acc := by
            have hsub : acc.drop 1 ⊆ acc := by
              cases acc with
              | nil => simp
              | cons a tl => intro x hx; exact List.mem_cons_of_mem a hx
            exact hsub h3
          exact this
        · exact Or.inr (List.mem_cons_of_mem p h3)
      · rw [if_neg h2] at h
        rcases ih (p :: acc) h with h3 | h3
        · rcases List.mem_cons.1 h3 with h4 | h4
          · exact Or.inr (h4 ▸ List.mem_cons_self p rest)
          · exact Or.inl h4
        · exact Or.inr (List.mem_cons_of_mem p h3)

theorem mem_normRelAux {s : String} :
    ∀ (ps acc : List String), s ∈ normRelAux acc ps → s ∈ acc ∨ s ∈ ps ∨ s = ".." := by
  intro ps
  induction ps with
  | nil =>
    intro acc h
    rw [normRelAux] at h
    exact Or.inl (List.mem_reverse.1 h)
  | cons p rest ih =>
    intro acc h
    rw [normRelAux.eq_def] at h
    simp only [] at h
    by_cases h1 : p = "."
    · rw [if_pos h1] at h
      rcases ih acc h with h2 | h2 | h2
      · exact Or.inl h2
      · exact Or.inr (Or.inl (List.mem_cons_of_mem p h2))
      · exact Or.inr (Or.inr h2)
    · rw [if_neg h1] at h
      by_cases h2 : p = ".."
      · rw [if_pos h2] at h
        cases acc with
        | nil =>
          rcases ih [".."] h with h3 | h3 | h3
          · rcases List.mem_cons.1 h3 with h4 | h4
            · exact Or.inr (Or.inr h4)
            · cases h4
          · exact Or.inr (Or.inl (List.mem_cons_of_mem p h3))
          · exact Or.inr (Or.inr h3)
        | cons a tl =>
          simp only [] at h
          by_cases h3 : a = ".."
          · rw [if_pos h3] at h
            rcases ih (".." :: a :: tl) h with h4 | h4 | h4
            · rcases List.mem_cons.1 h4 with h5 | h5
              · exact Or.inr (Or.inr h5)
              · exact Or.inl h5
            · exact Or.inr (Or.inl (List.mem_cons_of_mem p h4))
            · exact Or.inr (Or.inr h4)
          · rw [if_neg h3] at h
            rcases ih tl h with h4 | h4 | h4
            · exact Or.inl (List.mem_cons_of_mem a h4)
            · exact Or.inr (Or.inl (List.mem_cons_of_mem p h4))
            · exact Or.inr (Or.inr h4)
      · rw [if_neg h2] at h
        rcases ih (p :: acc) h with h3 | h3 | h3
        · rcases List.mem_cons.1 h3 with h4 | h4
          · exact Or.inr (Or.inl (h4 ▸ List.mem_cons_self p rest))
          · exact Or.inl h4
        · exact Or.inr (Or.inl (List.mem_cons_of_mem p h3))
        · exact Or.inr (Or.inr h3)

theorem mem_ite_string {c : Char} {b : Prop} [Decidable b] {x y : String}
    (h : c ∈ (if b then x else y).data) : c ∈ x.data ∨ c ∈ y.data := by
  by_cases hb : b
  · rw [if_pos hb] at h; exact Or.inl h
  · rw [if_neg hb] at h; exact Or.inr h

theorem mem_dot_data {c : Char} (h : c ∈ (".").data) : c = '.' := by
  have hd : (".").data = ['.'] := rfl
  rw [hd] at h
  simpa using h

theorem mem_dotdot_data {c : Char} (h : c ∈ ("..").data) : c = '.' := by
  have hd : ("..").data = ['.', '.'] := rfl
  rw [hd] at h
  rcases List.mem_cons.1 h with h1 | h1
  · exact h1
  · simpa using h1

theorem mem_posixNormalize {c : Char} {p : String}
    (h : c ∈ (posixNormalize p).data) : c ∈ p.data ∨ c = '/' ∨ c = '.' := by
  have hseg : ∀ (ps : List String),
      (∀ s ∈ ps, s ∈ rawParts p ∨ s = "..") → c ∈ segChars ps →
        c ∈ p.data ∨ c = '/' ∨ c = '.' := by
    intro ps hsub hc
    rcases mem_segChars ps hc with h1 | ⟨s, hs, hcs⟩
    · exact Or.inr (Or.inl h1)
    · rcases hsub s hs with h2 | h2
      · exact Or.inl (mem_rawParts h2 hcs)
      · exact Or.inr (Or.inr (mem_dotdot_data (h2 ▸ hcs)))
  have hPS : ∀ s ∈ (if isAbsolutePath p = true then normAbs (rawParts p)
      else normRel (rawParts p)), s ∈ rawParts p ∨ s = ".." := by
    intro s hs
    by_cases hab : isAbsolutePath p = true
    · rw [if_pos hab] at hs
      rcases mem_normAbsAux (rawParts p) [] hs with h1 | h1
      · cases h1
      · exact Or.inl h1
    · rw [if_neg hab] at hs
      rcases mem_normRelAux (rawParts p) [] hs with h1 | h1 | h1
      · cases h1
      · exact Or.inl h1
      · exact Or.inr h1
  unfold posixNormalize at h
  by_cases h0 : p.data = []
  · rw [if_pos h0] at h
    exact Or.inr (Or.inr (mem_dot_data h))
  · rw [if_neg h0] at h
    simp only [] at h
    rcases mem_ite_string h with h1 | h1
    · rw [data_strMk] at h1
      rcases List.mem_cons.1 h1 with h2 | h2
      · exact Or.inr (Or.inl h2)
      · rcases mem_ite_string h2 with h3 | h3
        · rw [data_strMk] at h3
          rcases List.mem_append.1 h3 with h4 | h4
          · rcases mem_ite_string h4 with h5 | h5
            · exact Or.inr (Or.inr (mem_dot_data h5))
            · exact hseg _ hPS h5
          · exact Or.inr (Or.inl (by simpa using h4))
        · rcases mem_ite_string h3 with h4 | h4
          · exact Or.inr (Or.inr (mem_dot_data h4))
          · exact hseg _ hPS h4
    · rcases mem_ite_string h1 with h3 | h3
      · rw [data_strMk] at h3
        rcases List.mem_append.1 h3 with h4 | h4
        · rcases mem_ite_string h4 with h5 | h5
          · exact Or.inr (Or.inr (mem_dot_data h5))
          · exact hseg _ hPS h5
        · exact Or.inr (Or.inl (by simpa using h4))
      · rcases mem_ite_string h3 with h4 | h4
        · exact Or.inr (Or.inr (mem_dot_data h4))
        · exact hseg _ hPS h4

theorem mem_posixJoin2 {c : Char} {a b : String}
    (h : c ∈ (posixJoin2 a b).data) :
    c ∈ a.data ∨ c ∈ b.data ∨ c = '/' ∨ c = '.' := by
  unfold posixJoin2 at h
  by_cases h1 : a = "" ∧ b = ""
  · rw [if_pos h1] at h
    exact Or.inr (Or.inr (Or.inr (mem_dot_data h)))
  · rw [if_neg h1] at h
    by_cases h2 : a = ""
    · rw [if_pos h2] at h
      rcases mem_posixNormalize h with h3 | h3 | h3
      · exact Or.inr (Or.inl h3)
      · exact Or.inr (Or.inr (Or.inl h3))
      · exact Or.inr (Or.inr (Or.inr h3))
    · rw [if_neg h2] at h
      by_cases h3 : b = ""
      · rw [if_pos h3] at h
        rcases mem_posixNormalize h with h4 | h4 | h4
        · exact Or.inl h4
        · exact Or.inr (Or.inr (Or.inl h4))
        · exact Or.inr (Or.inr (Or.inr h4))
      · rw [if_neg h3] at h
        rcases mem_posixNormalize h with h4 | h4 | h4
        · rw [data_strMk] at h4
          rcases List.mem_append.1 h4 with h5 | h5
          · exact Or.inl h5
          · rcases List.mem_cons.1 h5 with h6 | h6
            · exact Or.inr (Or.inr (Or.inl h6))
            · exact Or.inr (Or.inl h6)
        · exact Or.inr (Or.inr (Or.inl h4))
        · exact Or.inr (Or.inr (Or.inr h4))

theorem mem_posixParseDir {c : Char} {p : String}
    (h : c ∈ (posixParseDir p).data) : c ∈ p.data ∨ c = '/' := by
  unfold posixParseDir at h
  simp only [] at h
  by_cases h1 : (p.data.reverse.dropWhile (fun c => c ≠ '/')).isEmpty = true
  · rw [if_pos h1] at h
    cases h
  · rw [if_neg h1] at h
    rcases mem_ite_string h with h2 | h2
    · right
      have hd : ("/").data = ['/'] := rfl
      rw [hd] at h2
      simpa using h2
    · rw [data_strMk] at h2
      left
      have h3 : c ∈ (p.data.reverse.dropWhile (fun c => c ≠ '/')).drop 1 :=
        List.mem_reverse.1 h2
      exact List.mem_reverse.1 (mem_of_dropWhileP (mem_of_drop h3))

theorem mem_parseBase {c : Char} {p : String}
    (h : c ∈ (parseBase p).data) : c ∈ p.data := by
  unfold parseBase at h
  rw [data_strMk] at h
  exact List.mem_reverse.1 (mem_of_takeWhileP (List.mem_reverse.1 h))

theorem mem_extSplit_fst {c : Char} {base : String}
    (h : c ∈ (extSplit base).1.data) : c ∈ base.data := by
  unfold extSplit at h
  simp only [] at h
  by_cases h1 : (base.data.reverse.takeWhile (fun c => c ≠ '.')).length =
      base.data.reverse.length
  · rw [if_pos h1] at h
    exact h
  · rw [if_neg h1] at h
    by_cases h2 : base.data.reverse.drop
        ((base.data.reverse.takeWhile (fun c => c ≠ '.')).length + 1) = []
    · rw [if_pos h2] at h
      exact h
    · rw [if_neg h2] at h
      rw [data_strMk] at h
      exact List.mem_reverse.1 (mem_of_drop (List.mem_reverse.1 h))

theorem mem_extSplit_snd {c : Char} {base : String}
    (h : c ∈ (extSplit base).2.data) : c ∈ base.data ∨ c = '.' := by
  unfold extSplit at h
  simp only [] at h
  by_cases h1 : (base.data.reverse.takeWhile (fun c => c ≠ '.')).length =
      base.data.reverse.length
  · rw [if_pos h1] at h
    cases h
  · rw [if_neg h1] at h
    by_cases h2 : base.data.reverse.drop
        ((base.data.reverse.takeWhile (fun c => c ≠ '.')).length + 1) = []
    · rw [if_pos h2] at h
      cases h
    · rw [if_neg h2] at h
      rw [data_strMk] at h
      rcases List.mem_cons.1 h with h3 | h3
      · exact Or.inr h3
      · exact Or.inl (List.mem_reverse.1 (mem_of_takeWhileP (List.mem_reverse.1 h3)))

theorem mem_shortenSha {c : Char} {id : String}
    (h : c ∈ (shortenSha id).data) : c ∈ id.data := by
  unfold shortenSha at h
  by_cases h1 : isUncommitted id = true
  · rw [if_pos h1] at h
    exact h
  · rw [if_neg h1] at h
    rw [data_strMk] at h
    exact mem_of_take h

theorem mem_escChars {c : Char} : ∀ {cs : List Char}, c ∈ escChars cs →
    c = '\\' ∨ c ∈ cs := by
  intro cs
  induction cs with
  | nil => intro h; cases h
  | cons x xs ih =>
    intro h
    rw [escChars] at h
    by_cases hx : x = '\\' ∨ x = '"'
    · rw [if_pos hx] at h
      rcases List.mem_cons.1 h with h1 | h1
      · exact Or.inl h1
      · rcases List.mem_cons.1 h1 with h2 | h2
        · exact Or.inr (h2 ▸ List.mem_cons_self x xs)
        · rcases ih h2 with h3 | h3
          · exact Or.inl h3
          · exact Or.inr (List.mem_cons_of_mem x h3)
    · rw [if_neg hx] at h
      rcases List.mem_cons.1 h with h1 | h1
      · exact Or.inr (h1 ▸ List.mem_cons_self x xs)
      · rcases ih h1 with h2 | h2
        · exact Or.inl h2
        · exact Or.inr (List.mem_cons_of_mem x h2)

theorem mem_kvChars {c : Char} {k v : String} (h : c ∈ kvChars k v) :
    c = '"' ∨ c = ':' ∨ c = '\\' ∨ c ∈ k.data ∨ c ∈ v.data := by
  have hesc := @mem_escChars c v.data
  unfold kvChars at h
  simp only [List.mem_cons, List.mem_append, List.mem_singleton,
    List.not_mem_nil, or_false, false_or] at h
  tauto

theorem hash_not_mem_revDataChars (d : IUriRevisionData)
    (h1 : '#' ∉ d.fileName.data) (h2 : '#' ∉ d.repoPath.data)
    (h3 : ∀ s, d.sha = some s → '#' ∉ s.data) :
    '#' ∉ revDataChars d := by
  intro hmem
  unfold revDataChars at hmem
  have hkv : ∀ (k v : String), '#' ∉ k.data → '#' ∉ v.data →
      '#' ∉ kvChars k v := by
    intro k v hk hv hm
    rcases mem_kvChars hm with h | h | h | h | h
    · exact absurd h (by decide)
    · exact absurd h (by decide)
    · exact absurd h (by decide)
    · exact hk h
    · exact hv h
  have hA : ¬('#' = lbrace) := by decide
  have hB : ¬('#' = ',') := by decide
  have hC : ¬('#' = rbrace) := by decide
  have hk1 : '#' ∉ kvChars "fileName" d.fileName :=
    hkv "fileName" d.fileName (by decide) h1
  have hk2 : '#' ∉ kvChars "repoPath" d.repoPath :=
    hkv "repoPath" d.repoPath (by decide) h2
  cases hsha : d.sha with
  | none =>
    rw [hsha] at hmem
    simp only [List.mem_cons, List.mem_append, List.mem_singleton,
      List.not_mem_nil, or_false, false_or] at hmem
    tauto
  | some s =>
    have hk3 : '#' ∉ kvChars "sha" s := hkv "sha" s (by decide) (h3 s hsha)
    rw [hsha] at hmem
    simp only [List.mem_cons, List.mem_append, List.mem_singleton,
      List.not_mem_nil, or_false, false_or] at hmem
    tauto

theorem data_app (s t : String) : (s ++ t).data = s.data ++ t.data := rfl

theorem strEq_of_data {s t : String} (h : s.data = t.data) : s = t := by
  cases s with
  | mk a =>
    cases t with
    | mk b => exact congrArg String.mk h

theorem mem_absOf {c : Char} {ps : List String} (h : c ∈ (absOf ps).data) :
    c = '/' ∨ ∃ s ∈ ps, c ∈ s.data := by
  have hd : (absOf ps).data = '/' :: segChars ps := rfl
  rw [hd] at h
  rcases List.mem_cons.1 h with h1 | h1
  · exact Or.inl h1
  · exact mem_segChars ps h1

theorem hash_not_mem_absOf {ps : List String} (hps : ∀ s ∈ ps, CleanSeg s) :
    '#' ∉ (absOf ps).data := by
  intro h
  rcases mem_absOf h with h1 | ⟨s, hs, hcs⟩
  · exact absurd h1 (by decide)
  · exact (hps s hs).2.2.2.2.2.2 hcs

theorem qm_not_mem_absOf {ps : List String} (hps : ∀ s ∈ ps, CleanSeg s) :
    '?' ∉ (absOf ps).data := by
  intro h
  rcases mem_absOf h with h1 | ⟨s, hs, hcs⟩
  · exact absurd h1 (by decide)
  · exact (hps s hs).2.2.2.2.2.1 hcs

theorem hash_not_mem_relOf {ps : List String} (hps : ∀ s ∈ ps, CleanSeg s) :
    '#' ∉ (relOf ps).data := by
  intro h
  rcases mem_segChars ps h with h1 | ⟨s, hs, hcs⟩
  · exact absurd h1 (by decide)
  · exact (hps s hs).2.2.2.2.2.2 hcs

/-- The emitted revision locator splits at its scheme, short-sha path segment
and JSON query exactly as `Uri.parse` expects, whenever the file name, the
revision id and the payload strings avoid the `#`/`?` metacharacters. -/
theorem toRevisionUri_parts (cwd sha fileName repoPath : String)
    (hfn1 : '#' ∉ fileName.data) (hfn2 : '?' ∉ fileName.data)
    (hsha1 : '#' ∉ sha.data) (hsha2 : '?' ∉ sha.data)
    (hq1 : '#' ∉ (normalizePath (posixRelative cwd repoPath fileName)).data)
    (hq2 : '#' ∉ repoPath.data) :
    toRevisionUri cwd sha fileName repoPath =
      ⟨gitLensGitScheme, "",
        String.mk ((posixJoin2 (posixParseDir fileName) (extSplit (parseBase fileName)).1).data ++
          ':' :: ((shortenSha sha).data ++ (extSplit (parseBase fileName)).2.data)),
        stringifyRevisionData
          ⟨some sha, normalizePath (posixRelative cwd repoPath fileName), repoPath⟩,
        ""⟩ := by
  have hpc : ∀ x ∈ (posixJoin2 (posixParseDir fileName) (extSplit (parseBase fileName)).1).data ++
      ':' :: ((shortenSha sha).data ++ (extSplit (parseBase fileName)).2.data),
      x ∈ fileName.data ∨ x ∈ sha.data ∨ x = '/' ∨ x = '.' ∨ x = ':' := by
    intro x hx
    rcases List.mem_append.1 hx with h1 | h1
    · rcases mem_posixJoin2 h1 with h2 | h2 | h2 | h2
      · rcases mem_posixParseDir h2 with h3 | h3
        · exact Or.inl h3
        · exact Or.inr (Or.inr (Or.inl h3))
      · exact Or.inl (mem_parseBase (mem_extSplit_fst h2))
      · exact Or.inr (Or.inr (Or.inl h2))
      · exact Or.inr (Or.inr (Or.inr (Or.inl h2)))
    · rcases List.mem_cons.1 h1 with h2 | h2
      · exact Or.inr (Or.inr (Or.inr (Or.inr h2)))
      · rcases List.mem_append.1 h2 with h3 | h3
        · exact Or.inr (Or.inl (mem_shortenSha h3))
        · rcases mem_extSplit_snd h3 with h4 | h4
          · exact Or.inl (mem_parseBase h4)
          · exact Or.inr (Or.inr (Or.inr (Or.inl h4)))
  have hpcHash : '#' ∉ (posixJoin2 (posixParseDir fileName) (extSplit (parseBase fileName)).1).data ++
      ':' :: ((shortenSha sha).data ++ (extSplit (parseBase fileName)).2.data) := by
    intro h
    rcases hpc '#' h with h1 | h1 | h1 | h1 | h1
    · exact hfn1 h1
    · exact hsha1 h1
    · exact absurd h1 (by decide)
    · exact absurd h1 (by decide)
    · exact absurd h1 (by decide)
  have hpcQm : '?' ∉ (posixJoin2 (posixParseDir fileName) (extSplit (parseBase fileName)).1).data ++
      ':' :: ((shortenSha sha).data ++ (extSplit (parseBase fileName)).2.data) := by
    intro h
    rcases hpc '?' h with h1 | h1 | h1 | h1 | h1
    · exact hfn2 h1
    · exact hsha2 h1
    · exact absurd h1 (by decide)
    · exact absurd h1 (by decide)
    · exact absurd h1 (by decide)
  have hjc : '#' ∉ (stringifyRevisionData
      ⟨some sha, normalizePath (posixRelative cwd repoPath fileName), repoPath⟩).data := by
    show '#' ∉ revDataChars _
    apply hash_not_mem_revDataChars
    · exact hq1
    · exact hq2
    · intro s hs
      have hss : s = sha := by
        simpa using hs.symm
      rw [hss]
      exact hsha1
  have hstr : toRevisionUriString cwd sha fileName repoPath =
      String.mk (gitLensGitScheme.data ++ ':' ::
        (((posixJoin2 (posixParseDir fileName) (extSplit (parseBase fileName)).1).data ++
          ':' :: ((shortenSha sha).data ++ (extSplit (parseBase fileName)).2.data)) ++ '?' ::
          (stringifyRevisionData
            ⟨some sha, normalizePath (posixRelative cwd repoPath fileName), repoPath⟩).data)) := by
    apply strEq_of_data
    unfold toRevisionUriString
    simp only [data_app, data_strMk]
    simp [List.append_assoc]
  unfold toRevisionUri
  rw [hstr]
  exact uriParse_canon gitLensGitScheme _ _ (by decide) hpcHash hpcQm hjc

/-- C1: for every well-formed `(repoRoot, relativeFileName, revisionId)`
triple with `revisionId` a real committed id, decoding the locator produced
by `toRevisionUri` yields a `GitUri` whose absolute path is
`resolve(repoRoot, relativeFileName)`, whose `repoPath` is `repoRoot`, and
whose `sha` is exactly `revisionId`. -/
theorem c1_toRevisionUri_roundtrip (cwd : String) (rps fps : List String) (sha : String)
    (hr : ∀ s ∈ rps, CleanSeg s) (hf : ∀ s ∈ fps, CleanSeg s) (hfne : fps ≠ [])
    (hsha0 : isUncommitted sha = false)
    (hsha1 : '#' ∉ sha.data) (hsha2 : '?' ∉ sha.data) :
    ∃ gu : GitUri,
      gitUriFromUri cwd
          (toRevisionUri cwd sha (posixResolve2 cwd (absOf rps) (relOf fps)) (absOf rps)) =
        some gu ∧
      gu.uri.path = posixResolve2 cwd (absOf rps) (relOf fps) ∧
      gu.repoPath = some (absOf rps) ∧
      gu.sha = some sha := by
  have hfeq : posixResolve2 cwd (absOf rps) (relOf fps) = absOf (rps ++ fps) :=
    posixResolve2_abs_rel cwd rps fps hr hf
  have habs : ∀ s ∈ rps ++ fps, CleanSeg s := by
    intro s hs
    rcases List.mem_append.1 hs with h | h
    · exact hr s h
    · exact hf s h
  have hdataF : normalizePath (posixRelative cwd (absOf rps)
      (posixResolve2 cwd (absOf rps) (relOf fps))) = relOf fps := by
    rw [hfeq, posixRelative_roundtrip cwd rps fps hr hf hfne]
    exact normalizePath_relOf fps hf
  have hfn1 : '#' ∉ (posixResolve2 cwd (absOf rps) (relOf fps)).data := by
    rw [hfeq]; exact hash_not_mem_absOf habs
  have hfn2 : '?' ∉ (posixResolve2 cwd (absOf rps) (relOf fps)).data := by
    rw [hfeq]; exact qm_not_mem_absOf habs
  have hq1 : '#' ∉ (normalizePath (posixRelative cwd (absOf rps)
      (posixResolve2 cwd (absOf rps) (relOf fps)))).data := by
    rw [hdataF]; exact hash_not_mem_relOf hf
  have hq2 : '#' ∉ (absOf rps).data := hash_not_mem_absOf hr
  rw [toRevisionUri_parts cwd sha (posixResolve2 cwd (absOf rps) (relOf fps)) (absOf rps)
    hfn1 hfn2 hsha1 hsha2 hq1 hq2]
  unfold gitUriFromUri gitUriMake
  rw [if_pos rfl]
  simp only []
  rw [parse_stringify]
  simp only []
  refine ⟨_, rfl, ?_, rfl, ?_⟩
  · show posixResolve2 cwd (absOf rps)
      (normalizePath (posixRelative cwd (absOf rps)
        (posixResolve2 cwd (absOf rps) (relOf fps)))) =
      posixResolve2 cwd (absOf rps) (relOf fps)
    rw [hdataF]
  · show (if isStagedUncommittedOpt (some sha) || !(isUncommittedOpt (some sha))
      then some sha else none) = some sha
    have hu : isUncommittedOpt (some sha) = false := hsha0
    rw [hu]
    simp

/-- Closed witness for C1 at a concrete repository root, relative file name
and revision id. -/
theorem c1_toRevisionUri_roundtrip_witness :
    ∃ gu : GitUri,
      gitUriFromUri "/cwd"
          (toRevisionUri "/cwd" "deadbeef"
            (posixResolve2 "/cwd" (absOf ["repo"]) (relOf ["src", "a.ts"]))
            (absOf ["repo"])) =
        some gu ∧
      gu.uri.path = posixResolve2 "/cwd" (absOf ["repo"]) (relOf ["src", "a.ts"]) ∧
      gu.repoPath = some (absOf ["repo"]) ∧
      gu.sha = some "deadbeef" :=
  c1_toRevisionUri_roundtrip "/cwd" ["repo"] ["src", "a.ts"] "deadbeef"
    (by decide) (by decide) (by decide) (by decide) (by decide) (by decide)

/-- C3: encoding the concrete triple `(repoRoot = "/repo",
relativeFileName = "src/a.ts", revisionId = "deadbeef0123...")` — the file
name handed to `toRevisionUri` being the triple's absolute path
`/repo/src/a.ts` — produces a locator whose scheme is the Revision tag,
whose path segment is `/repo/src/a` followed by `:deadbee.ts` (short id plus
original extension), and whose query parses to exactly
`{fileName: "src/a.ts", repoPath: "/repo", sha: <full id>}`. -/
theorem c3_encode_concrete (cwd : String) :
    toRevisionUri cwd "deadbeef01234567890123456789012345678901" "/repo/src/a.ts" "/repo" =
      ⟨gitLensGitScheme, "", "/repo/src/a:deadbee.ts",
        stringifyRevisionData
          ⟨some "deadbeef01234567890123456789012345678901", "src/a.ts", "/repo"⟩, ""⟩ ∧
    parseRevisionData
        (toRevisionUri cwd "deadbeef01234567890123456789012345678901" "/repo/src/a.ts" "/repo").query =
      some ⟨some "deadbeef01234567890123456789012345678901", "src/a.ts", "/repo"⟩ :=
  ⟨rfl, rfl⟩

/-- C2 counterexample: decoding a Revision-scheme locator whose embedded id
is the staged-uncommitted sentinel yields a `GitUri` whose `sha` IS set (to
that sentinel), refuting the claim that the staged-uncommitted sentinel is
normalized to an unset sha. -/
theorem c2_staged_counterexample :
    isStagedUncommitted stagedUncommittedSha = true ∧
    (gitUriFromUri "/" ⟨gitLensGitScheme, "", "/x",
        stringifyRevisionData ⟨some stagedUncommittedSha, "a.ts", "/repo"⟩, ""⟩).map
      GitUri.sha = some (some stagedUncommittedSha) := by
  constructor
  · rfl
  · unfold gitUriFromUri gitUriMake
    rw [if_pos rfl]
    simp only []
    rw [parse_stringify]
    simp [isStagedUncommittedOpt, isStagedUncommitted]

/-- C2 amended: on both decode paths (Revision-scheme locator and explicit
commit-info record) `sha` is retained whenever the embedded id denotes a real
committed revision or the staged-uncommitted sentinel; only the plain
uncommitted sentinel is normalized to an unset sha. -/
theorem c2_sha_normalization_amended (cwd : String) (u u2 : Uri)
    (arg : Option CommitOrRepoPath) (d : IUriRevisionData) (info : IGitCommitInfo)
    (gu guI : GitUri)
    (hs : u.scheme = gitLensGitScheme)
    (hq : parseRevisionData u.query = some d)
    (hgu : gitUriMake cwd u arg = some gu)
    (hs2 : ¬(u2.scheme = gitLensGitScheme))
    (hguI : gitUriMake cwd u2 (some (CommitOrRepoPath.info info)) = some guI) :
    ((isStagedUncommittedOpt d.sha = true ∨ isUncommittedOpt d.sha = false) →
      gu.sha = d.sha) ∧
    (d.sha = some uncommittedSha → gu.sha = none) ∧
    ((isStagedUncommittedOpt info.sha = true ∨ isUncommittedOpt info.sha = false) →
      guI.sha = info.sha) ∧
    (info.sha = some uncommittedSha → guI.sha = none) := by
  unfold gitUriMake at hgu hguI
  rw [if_pos hs, hq] at hgu
  rw [if_neg hs2] at hguI
  simp only [] at hgu hguI
  have hgu1 : gu.sha = if isStagedUncommittedOpt d.sha || !(isUncommittedOpt d.sha)
      then d.sha else none := by
    have := Option.some.inj hgu
    rw [← this]
  have hgu2 : guI.sha = if isStagedUncommittedOpt info.sha || !(isUncommittedOpt info.sha)
      then info.sha else none := by
    have := Option.some.inj hguI
    rw [← this]
  have hstagedU : isStagedUncommitted uncommittedSha = false := by decide
  have hexU : isUncommitted uncommittedSha = true := by decide
  refine ⟨?_, ?_, ?_, ?_⟩
  · intro hcond
    rw [hgu1]
    rcases hcond with h | h
    · simp [h]
    · simp [h]
  · intro h
    rw [hgu1, h]
    simp [isStagedUncommittedOpt, isUncommittedOpt, hstagedU, hexU]
  · intro hcond
    rw [hgu2]
    rcases hcond with h | h
    · simp [h]
    · simp [h]
  · intro h
    rw [hgu2, h]
    simp [isStagedUncommittedOpt, isUncommittedOpt, hstagedU, hexU]

/-- Closed witness for the amended C2, at a Revision locator carrying a real
committed id and a commit-info record carrying the plain uncommitted
sentinel. -/
theorem c2_sha_normalization_amended_witness :
    (({ uri := ⟨gitLensGitScheme, "", posixResolve2 "/" "/repo" "a.ts",
          stringifyRevisionData ⟨some "abc123", "a.ts", "/repo"⟩, ""⟩,
        repoPath := some "/repo", sha := some "abc123" } : GitUri).sha = some "abc123") ∧
    (({ uri := ⟨"file", "", posixResolve2 "/" "/repo" "b.ts", "", ""⟩,
        repoPath := some "/repo", sha := none } : GitUri).sha = none) := by
  have h := c2_sha_normalization_amended "/"
    ⟨gitLensGitScheme, "", "/x", stringifyRevisionData ⟨some "abc123", "a.ts", "/repo"⟩, ""⟩
    (Uri.file "/repo/b.ts") none ⟨some "abc123", "a.ts", "/repo"⟩
    ⟨some "b.ts", "/repo", some uncommittedSha⟩
    { uri := ⟨gitLensGitScheme, "", posixResolve2 "/" "/repo" "a.ts",
        stringifyRevisionData ⟨some "abc123", "a.ts", "/repo"⟩, ""⟩,
      repoPath := some "/repo", sha := some "abc123" }
    { uri := ⟨"file", "", posixResolve2 "/" "/repo" "b.ts", "", ""⟩,
      repoPath := some "/repo", sha := none }
    rfl (by decide) (by decide) (by decide) (by decide)
  exact ⟨h.1 (Or.inr (by decide)), h.2.2.2 rfl⟩

/-- C4 counterexample: on a file-scoped commit whose `previousFileName` is
unset but whose `originalFileName` is set, `previousUri` is the CURRENT
file's uri, not `originalFileName` resolved against the repository root. -/
theorem c4_previousUri_counterexample :
    GitCommit.previousUri "/"
        ⟨GitCommitType.file, "/repo", "abc123", "au", 0, "msg", "cur.ts",
          some "orig.ts", none, none, none, none, "prevsha"⟩ =
      Uri.file "/repo/cur.ts" ∧
    Uri.file "/repo/cur.ts" ≠ Uri.file (posixResolve2 "/" "/repo" "orig.ts") := by
  constructor
  · decide
  · decide

/-- C4 amended: when `previousFileName` is set (truthy), `previousUri`
resolves it against the repository root (the `|| originalFileName` fallback
being unreachable there); when it is unset, `previousUri` is the commit's own
`uri`, i.e. the current `fileName` resolved against the repository root. -/
theorem c4_previousUri_amended (cwd : String) (c : GitCommit) :
    (∀ pf, c.previousFileName = some pf → pf ≠ "" →
      c.previousUri cwd = Uri.file (posixResolve2 cwd c.repoPath pf)) ∧
    (jsTruthy c.previousFileName = false →
      c.previousUri cwd = c.uri cwd ∧
      c.previousUri cwd = Uri.file (posixResolve2 cwd c.repoPath c.fileName)) := by
  constructor
  · intro pf hpf hne
    have ht : jsTruthy c.previousFileName = true := by
      rw [hpf]
      simpa [jsTruthy] using hne
    unfold GitCommit.previousUri
    rw [if_pos ht, hpf]
    simp [jsOrSS, jsTruthy, hne]
  · intro hf
    have h1 : c.previousUri cwd = c.uri cwd := by
      unfold GitCommit.previousUri
      rw [if_neg (by simp [hf])]
    exact ⟨h1, h1⟩

/-- Closed witness for the amended C4: one commit with a previous file name,
one without. -/
theorem c4_previousUri_amended_witness :
    GitCommit.previousUri "/"
        ⟨GitCommitType.file, "/repo", "abc123", "au", 0, "msg", "cur.ts",
          some "orig.ts", none, some "prev.ts", none, none, "prevsha"⟩ =
      Uri.file (posixResolve2 "/" "/repo" "prev.ts") ∧
    GitCommit.previousUri "/"
        ⟨GitCommitType.file, "/repo", "abc123", "au", 0, "msg", "cur.ts",
          some "orig.ts", none, none, none, none, "prevsha"⟩ =
      GitCommit.uri "/"
        ⟨GitCommitType.file, "/repo", "abc123", "au", 0, "msg", "cur.ts",
          some "orig.ts", none, none, none, none, "prevsha"⟩ :=
  ⟨(c4_previousUri_amended "/"
      ⟨GitCommitType.file, "/repo", "abc123", "au", 0, "msg", "cur.ts",
        some "orig.ts", none, some "prev.ts", none, none, "prevsha"⟩).1
    "prev.ts" rfl (by decide),
   ((c4_previousUri_amended "/"
      ⟨GitCommitType.file, "/repo", "abc123", "au", 0, "msg", "cur.ts",
        some "orig.ts", none, none, none, none, "prevsha"⟩).2 (by decide)).1⟩

/-- C5: the observable `fileName` is the stored file name on the per-file
tags (Blame, File, StashFile) and the empty string on the others (Branch,
Stash); `isFile` is true exactly on the per-file tags and `isStash` exactly
on the stash tags. -/
theorem c5_fileName_classification (c : GitCommit) :
    ((c.type = GitCommitType.blame ∨ c.type = GitCommitType.file ∨
        c.type = GitCommitType.stashFile) → c.fileName = c._fileName) ∧
    ((c.type = GitCommitType.branch ∨ c.type = GitCommitType.stash) →
      c.fileName = "") ∧
    (c.isFile = true ↔ (c.type = GitCommitType.blame ∨ c.type = GitCommitType.file ∨
      c.type = GitCommitType.stashFile)) ∧
    (c.isStash = true ↔ (c.type = GitCommitType.stash ∨
      c.type = GitCommitType.stashFile)) := by
  cases h : c.type <;>
    simp [GitCommit.fileName, GitCommit.isFile, GitCommit.isStash, h]

/-- Closed witness for C5 at a file-scoped and a branch-scoped record. -/
theorem c5_fileName_classification_witness :
    GitCommit.fileName
        ⟨GitCommitType.file, "/repo", "s", "a", 0, "m", "cur.ts",
          none, none, none, none, none, "p"⟩ = "cur.ts" ∧
    GitCommit.fileName
        ⟨GitCommitType.branch, "/repo", "s", "a", 0, "m", "cur.ts",
          none, none, none, none, none, "p"⟩ = "" := by
  constructor
  · have h := (c5_fileName_classification
      ⟨GitCommitType.file, "/repo", "s", "a", 0, "m", "cur.ts",
        none, none, none, none, none, "p"⟩).1 (Or.inr (Or.inl rfl))
    simpa using h
  · exact (c5_fileName_classification
      ⟨GitCommitType.branch, "/repo", "s", "a", 0, "m", "cur.ts",
        none, none, none, none, none, "p"⟩).2.1 (Or.inl rfl)

/-- C8: in the copy-with-overrides primitive, an omitted field (`undefined`)
keeps the original value, the clear sentinel (`null`) unsets the field, and a
supplied value replaces it; being a pure function of the original record, it
never mutates the original in place. -/
theorem c8_getChangedValue {α : Type} (original : Option α) (v : α) :
    getChangedValue none original = original ∧
    getChangedValue (some none) original = (none : Option α) ∧
    getChangedValue (some (some v)) original = some v :=
  ⟨rfl, rfl, rfl⟩

/-- C10: assigning the currently stored previous id back through the
`previousSha` setter is a complete no-op: the record — including the memoized
resolved-previous-sha cache — is unchanged. -/
theorem c10_setter_same_value_noop (c : GitCommit) :
    c.setPreviousSha c.previousSha = c := by
  unfold GitCommit.setPreviousSha GitCommit.previousSha
  rw [if_pos rfl]

/-- C6: with an empty cache, a successful resolution stores the result and
makes every later call a resolver-free no-op; a failed resolution propagates
the error, leaves the cache empty (the record unchanged), and a later call
consults the resolver again. -/
theorem c6_resolve_memoization (cwd : String) (git git2 : ResolveReference)
    (c : GitCommit) (h : c._resolvedPreviousFileSha = none) :
    (∀ v, git c.repoPath c.previousFileSha
        (if c.fileName ≠ "" then some (c.previousUri cwd) else none) = Except.ok v →
      c.resolvePreviousFileSha cwd git =
        Except.ok { c with _resolvedPreviousFileSha := some v } ∧
      GitCommit.resolvePreviousFileSha cwd git2
          { c with _resolvedPreviousFileSha := some v } =
        Except.ok { c with _resolvedPreviousFileSha := some v }) ∧
    (∀ e, git c.repoPath c.previousFileSha
        (if c.fileName ≠ "" then some (c.previousUri cwd) else none) = Except.error e →
      c.resolvePreviousFileSha cwd git = Except.error e ∧
      ∀ v2, git2 c.repoPath c.previousFileSha
          (if c.fileName ≠ "" then some (c.previousUri cwd) else none) = Except.ok v2 →
        c.resolvePreviousFileSha cwd git2 =
          Except.ok { c with _resolvedPreviousFileSha := some v2 }) := by
  constructor
  · intro v hv
    constructor
    · unfold GitCommit.resolvePreviousFileSha
      rw [if_neg (by simp [h]), hv]
    · unfold GitCommit.resolvePreviousFileSha
      rw [if_pos (by simp)]
  · intro e he
    constructor
    · unfold GitCommit.resolvePreviousFileSha
      rw [if_neg (by simp [h]), he]
    · intro v2 hv2
      unfold GitCommit.resolvePreviousFileSha
      rw [if_neg (by simp [h]), hv2]

/-- Closed witness for C6: a concrete commit, one succeeding and one failing
resolver. -/
theorem c6_resolve_memoization_witness :
    GitCommit.resolvePreviousFileSha "/" (fun _ _ _ => Except.ok "r1")
        ⟨GitCommitType.file, "/repo", "s", "a", 0, "m", "cur.ts",
          none, none, none, none, none, "p"⟩ =
      Except.ok
        ⟨GitCommitType.file, "/repo", "s", "a", 0, "m", "cur.ts",
          none, none, none, none, some "r1", "p"⟩ ∧
    GitCommit.resolvePreviousFileSha "/"
        (fun _ _ _ => Except.error GitErr.referenceNotFound)
        ⟨GitCommitType.file, "/repo", "s", "a", 0, "m", "cur.ts",
          none, none, none, none, none, "p"⟩ =
      Except.error GitErr.referenceNotFound := by
  have h := c6_resolve_memoization "/" (fun _ _ _ => Except.ok "r1")
    (fun _ _ _ => Except.error GitErr.referenceNotFound)
    ⟨GitCommitType.file, "/repo", "s", "a", 0, "m", "cur.ts",
      none, none, none, none, none, "p"⟩ rfl
  have h2 := c6_resolve_memoization "/"
    (fun _ _ _ => Except.error GitErr.referenceNotFound)
    (fun _ _ _ => Except.ok "r1")
    ⟨GitCommitType.file, "/repo", "s", "a", 0, "m", "cur.ts",
      none, none, none, none, none, "p"⟩ rfl
  exact ⟨(h.1 "r1" rfl).1, (h2.2 GitErr.referenceNotFound rfl).1⟩

/-- C7: after a value has been cached, assigning a different previous id
through the setter clears the cache and stores the new id, so the next
resolution call consults the resolver (its result, not the stale cache, is
returned and cached). -/
theorem c7_setter_invalidates_cache (cwd : String) (git : ResolveReference)
    (c : GitCommit) (v : String) (newSha : Option String)
    (hc : c._resolvedPreviousFileSha = some v) (hne : ¬(newSha = c._previousSha)) :
    (c.setPreviousSha newSha)._resolvedPreviousFileSha = none ∧
    (c.setPreviousSha newSha)._previousSha = newSha ∧
    ∀ w, git (c.setPreviousSha newSha).repoPath (c.setPreviousSha newSha).previousFileSha
        (if (c.setPreviousSha newSha).fileName ≠ ""
          then some ((c.setPreviousSha newSha).previousUri cwd) else none) =
        Except.ok w →
      (c.setPreviousSha newSha).resolvePreviousFileSha cwd git =
        Except.ok { c.setPreviousSha newSha with _resolvedPreviousFileSha := some w } := by
  have hset : c.setPreviousSha newSha =
      { c with _previousSha := newSha, _resolvedPreviousFileSha := none } := by
    unfold GitCommit.setPreviousSha
    rw [if_neg hne]
  refine ⟨by rw [hset], by rw [hset], ?_⟩
  intro w hw
  unfold GitCommit.resolvePreviousFileSha
  rw [hw]
  rw [if_neg (by rw [hset]; simp)]

/-- Closed witness for C7: a concrete commit with a cached resolution, a new
previous id and a concrete resolver. -/
theorem c7_setter_invalidates_cache_witness :
    (GitCommit.setPreviousSha
        ⟨GitCommitType.file, "/repo", "s", "a", 0, "m", "cur.ts",
          none, some "old", none, none, some "cached", "p"⟩
        (some "new"))._resolvedPreviousFileSha = none ∧
    GitCommit.resolvePreviousFileSha "/" (fun _ _ _ => Except.ok "fresh")
        (GitCommit.setPreviousSha
          ⟨GitCommitType.file, "/repo", "s", "a", 0, "m", "cur.ts",
            none, some "old", none, none, some "cached", "p"⟩
          (some "new")) =
      Except.ok
        ⟨GitCommitType.file, "/repo", "s", "a", 0, "m", "cur.ts",
          none, some "new", none, none, some "fresh", "p"⟩ := by
  have h := c7_setter_invalidates_cache "/" (fun _ _ _ => Except.ok "fresh")
    ⟨GitCommitType.file, "/repo", "s", "a", 0, "m", "cur.ts",
      none, some "old", none, none, some "cached", "p"⟩
    "cached" (some "new") rfl (by decide)
  refine ⟨h.1, ?_⟩
  have h3 := h.2.2 "fresh" rfl
  rw [h3]
  rfl

theorem dropWhile_head_fail {p : Char → Bool} {x : Char} (t : List Char)
    (h : p x = false) : (x :: t).dropWhile p = x :: t := by
  rw [List.dropWhile_cons, if_neg (by simp [h])]

theorem dropWhile_append_all {p : Char → Bool} :
    ∀ (l r : List Char), (∀ c ∈ l, p c = true) →
      (l ++ r).dropWhile p = r.dropWhile p := by
  intro l
  induction l with
  | nil => intro r _; rfl
  | cons x t ih =>
    intro r h
    rw [List.cons_append, List.dropWhile_cons,
      if_pos (by simp [h x (List.mem_cons_self x t)]),
      ih r (fun c hc => h c (List.mem_cons_of_mem x hc))]

theorem takeWhile_append_fail {p : Char → Bool} :
    ∀ (l : List Char) (c : Char) (r : List Char), (∀ x ∈ l, p x = true) →
      p c = false → (l ++ c :: r).takeWhile p = l := by
  intro l
  induction l with
  | nil =>
    intro c r _ hc
    rw [List.nil_append, List.takeWhile_cons, if_neg (by simp [hc])]
  | cons x t ih =>
    intro c r h hc
    rw [List.cons_append, List.takeWhile_cons,
      if_pos (by simp [h x (List.mem_cons_self x t)]),
      ih c r (fun y hy => h y (List.mem_cons_of_mem x hy)) hc]

theorem absOf_ne_empty (ps : List String) : absOf ps ≠ "" := by
  apply string_ne_of_data_ne
  show '/' :: segChars ps ≠ []
  simp

theorem segChars_length_pos {rps : List String}
    (hr : ∀ s ∈ rps, CleanSeg s) (hrne : rps ≠ []) :
    1 ≤ (segChars rps).length := by
  cases rps with
  | nil => exact absurd rfl hrne
  | cons p rest =>
    obtain ⟨t, ht⟩ := @segChars_cons_head p rest
    rw [ht, List.length_append]
    have : p.data ≠ [] := (hr p (List.mem_cons_self p rest)).1
    have : 1 ≤ p.data.length := List.length_pos.2 this
    omega

theorem absChild_data (rps : List String) (b : String) (hrne : rps ≠ []) :
    (absOf (rps ++ [b])).data = ('/' :: segChars rps) ++ '/' :: b.data := by
  show '/' :: segChars (rps ++ [b]) = _
  rw [segChars_append_single rps b hrne, List.cons_append]

theorem absChild_rev (rps : List String) (b : String) (hrne : rps ≠ []) :
    (absOf (rps ++ [b])).data.reverse =
      b.data.reverse ++ '/' :: (absOf rps).data.reverse := by
  rw [absChild_data rps b hrne]
  have hA : (absOf rps).data = '/' :: segChars rps := rfl
  rw [hA]
  simp [List.reverse_append, List.append_assoc]

theorem absChild_skip_trailing (rps : List String) (b : String)
    (hrne : rps ≠ []) (hb : CleanSeg b) :
    (absOf (rps ++ [b])).data.reverse.dropWhile (fun c => c = '/') =
      b.data.reverse ++ '/' :: (absOf rps).data.reverse := by
  rw [absChild_rev rps b hrne]
  cases hbr : b.data.reverse with
  | nil =>
    have : b.data = [] := by simpa using hbr
    exact absurd this hb.1
  | cons x t =>
    have hx : ¬(x = '/') := by
      intro he
      have hxm : x ∈ b.data := List.mem_reverse.1 (hbr ▸ List.mem_cons_self x t)
      exact hb.2.2.2.1 (he ▸ hxm)
    rw [List.cons_append, dropWhile_head_fail _ (by simp [hx])]

theorem posixDirname_abs_child (rps : List String) (b : String)
    (hr : ∀ s ∈ rps, CleanSeg s) (hrne : rps ≠ []) (hb : CleanSeg b) :
    posixDirname (absOf (rps ++ [b])) = absOf rps := by
  have hbns : ∀ x ∈ b.data.reverse, (fun c => decide (c ≠ '/')) x = true := by
    intro x hx
    simp only [decide_eq_true_eq]
    intro he
    exact hb.2.2.2.1 (he ▸ List.mem_reverse.1 hx)
  have hstep2 : (b.data.reverse ++ '/' :: (absOf rps).data.reverse).dropWhile
      (fun c => c ≠ '/') = '/' :: (absOf rps).data.reverse := by
    rw [dropWhile_append_all _ _ hbns]
    exact dropWhile_head_fail _ (by simp)
  have hne : (absOf (rps ++ [b])).data ≠ [] := by
    rw [absChild_data rps b hrne]
    simp
  have hlenA : (absOf rps).data.length = 1 + (segChars rps).length := by
    have hA : (absOf rps).data = '/' :: segChars rps := rfl
    rw [hA, List.length_cons]
    omega
  have hseg := segChars_length_pos hr hrne
  unfold posixDirname
  rw [if_neg hne]
  simp only []
  rw [absChild_skip_trailing rps b hrne hb, hstep2]
  rw [if_pos (by
    rw [List.length_cons, List.length_reverse]
    omega)]
  rw [if_neg (by
    intro hand
    have := hand.2
    rw [List.length_cons, List.length_reverse] at this
    omega)]
  show String.mk (absOf rps).data.reverse.reverse = absOf rps
  rw [List.reverse_reverse, strMk_data]

theorem posixBasename_abs_child (rps : List String) (b : String)
    (hrne : rps ≠ []) (hb : CleanSeg b) :
    posixBasename (absOf (rps ++ [b])) = b := by
  have hbns : ∀ x ∈ b.data.reverse, (fun c => decide (c ≠ '/')) x = true := by
    intro x hx
    simp only [decide_eq_true_eq]
    intro he
    exact hb.2.2.2.1 (he ▸ List.mem_reverse.1 hx)
  unfold posixBasename
  rw [absChild_skip_trailing rps b hrne hb]
  simp only []
  rw [takeWhile_append_fail _ _ _ hbns (by simp)]
  rw [List.reverse_reverse, strMk_data]

/-- C9: `getFormattedPath` returns the bare basename exactly when the
computed directory (dirname, relativized against the repository root and the
optional `relativeTo`, then normalized) is empty or `.`; and on a path that
is a direct child of the repository root it returns the basename alone. -/
theorem c9_getFormattedPath (cwd : String) (g : GitUri) (sep : String)
    (relativeTo : Option String) (rps : List String) (b : String)
    (hr : ∀ s ∈ rps, CleanSeg s) (hrne : rps ≠ []) (hb : CleanSeg b) :
    (g.getFormattedPath cwd sep relativeTo = posixBasename g.uri.fsPath ↔
      (g.formattedDirectory cwd relativeTo = "" ∨
        g.formattedDirectory cwd relativeTo = ".")) ∧
    GitUri.getFormattedPath cwd
      ⟨⟨"file", "", absOf (rps ++ [b]), "", ""⟩, some (absOf rps), none⟩ sep none = b := by
  constructor
  · constructor
    · intro h
      by_contra hno
      push_neg at hno
      unfold GitUri.getFormattedPath at h
      rw [if_neg (by
        intro hor
        rcases hor with h1 | h1
        · exact hno.1 h1
        · exact hno.2 h1)] at h
      have hd := congrArg String.data h
      rw [data_app, data_app] at hd
      have hlen := congrArg List.length hd
      rw [List.length_append, List.length_append] at hlen
      have hpos : 1 ≤ (g.formattedDirectory cwd relativeTo).data.length :=
        List.length_pos.2 (data_ne_nil_of_ne_empty hno.1)
      omega
    · intro h
      unfold GitUri.getFormattedPath
      rw [if_pos h]
  · have hd1 : posixDirname
        (Uri.fsPath ⟨"file", "", absOf (rps ++ [b]), "", ""⟩) = absOf rps :=
      posixDirname_abs_child rps b hr hrne hb
    have hjt : jsTruthy (some (absOf rps)) = true := by
      simp [jsTruthy, absOf_ne_empty]
    unfold GitUri.getFormattedPath GitUri.formattedDirectory
    simp only [hjt, if_true, hd1, Option.getD]
    rw [posixRelative_self]
    have hnorm : normalizePath "" = "" := rfl
    rw [hnorm, if_pos (Or.inl rfl)]
    exact posixBasename_abs_child rps b hrne hb

/-- Closed witness for C9 at a concrete repository root and file. -/
theorem c9_getFormattedPath_witness :
    GitUri.getFormattedPath "/"
      ⟨⟨"file", "", absOf (["repo"] ++ ["a.ts"]), "", ""⟩,
        some (absOf ["repo"]), none⟩ " | " none = "a.ts" :=
  (c9_getFormattedPath "/"
    ⟨⟨"file", "", absOf (["repo"] ++ ["a.ts"]), "", ""⟩, some (absOf ["repo"]), none⟩
    " | " none ["repo"] "a.ts" (by decide) (by decide) (by decide)).2

end GitLens
